import Mathlib

/-!
Shallow embedding of the cutter repository's detection/geometry core:
`src/models/box.py`, `src/methods/detector.py`, `src/methods/deskew.py`,
`src/ocr/merge.py`.  Python integers are modelled as `Int`, Python float
arithmetic on small integer-derived quantities as `ℚ`.  External library
routines (PIL, numpy, OpenCV, scipy) are modelled by their documented
semantics where the repository's logic depends on them, and abstracted as
parameters where it does not (the KD-tree neighbour query, the gap
predicate image dependence, the Hough line transform).
-/

/-- Provenance tag of a box; from the `Literal["auto", "manual"]` field of
`Box` in src/models/box.py. -/
inductive Source where
  | auto
  | manual
deriving DecidableEq, Repr

/-- From src/models/box.py: the `Box` dataclass `{x, y, w, h, selected, source}`. -/
structure Box where
  x : Int
  y : Int
  w : Int
  h : Int
  selected : Bool := true
  source : Source := Source.auto
deriving DecidableEq, Repr

/-- From src/models/box.py: the `area` property, `w * h`. -/
def Box.area (b : Box) : Int := b.w * b.h

/-- From src/models/box.py: `iou_data(a, b)` returning
`(intersection, union, min_area)`; the no-overlap branch returns
`(0.0, a.area + b.area, 0.0)`. -/
def iou_data (a b : Box) : ℚ × ℚ × ℚ :=
  let x0 := max a.x b.x
  let y0 := max a.y b.y
  let x1 := min (a.x + a.w) (b.x + b.w)
  let y1 := min (a.y + a.h) (b.y + b.h)
  if x1 ≤ x0 ∨ y1 ≤ y0 then
    (0, ((a.area + b.area : Int) : ℚ), 0)
  else
    ((((x1 - x0) * (y1 - y0) : Int) : ℚ),
     ((a.area + b.area - (x1 - x0) * (y1 - y0) : Int) : ℚ),
     ((min a.area b.area : Int) : ℚ))

/-- From src/models/box.py: `IOU_THRESH = 0.7`. -/
def IOU_THRESH : ℚ := 7 / 10

/-- From src/models/box.py: `COVER_THRESH = 0.95`. -/
def COVER_THRESH : ℚ := 95 / 100

/-- From src/models/box.py: `iou(a, b)`, `0.0` when the union is below `0.1`. -/
def iou (a b : Box) : ℚ :=
  let d := iou_data a b
  if d.2.1 < 1 / 10 then 0 else d.1 / d.2.1

/-- From src/models/box.py: `coverage_ratio(a, b)`, `0.0` when the smaller
area is below `0.1`. -/
def coverage_ratio (a b : Box) : ℚ :=
  let d := iou_data a b
  if d.2.2 < 1 / 10 then 0 else d.1 / d.2.2

/-- Stable insertion step: `x` is placed before the first `y` with
`lt x y`, hence after every earlier element it ties with. -/
def insert_by {α : Type} (lt : α → α → Bool) (x : α) : List α → List α
  | [] => [x]
  | y :: ys => if lt x y then x :: y :: ys else y :: insert_by lt x ys

/-- Stable sort (models Python's stable `sorted` and OpenCV's stable score
sort): repeated stable insertion, left to right. -/
def sort_by {α : Type} (lt : α → α → Bool) (l : List α) : List α :=
  l.foldl (fun acc x => insert_by lt x acc) []

/-- From src/models/box.py: `coverage_deduplication(boxes)` — sort by the
key `b.x * b.y` (Python's stable `sorted`), then keep a box only if its
coverage ratio with every already-kept box is not above `COVER_THRESH`
(the inner `for kept ... break` loop is the conjunction over kept boxes). -/
def coverage_deduplication (boxes : List Box) : List Box :=
  let sorted_boxes := sort_by (fun a b => a.x * a.y < b.x * b.y) boxes
  sorted_boxes.foldl
    (fun final_boxes box =>
      if final_boxes.any (fun kept => COVER_THRESH < coverage_ratio box kept) then
        final_boxes
      else
        final_boxes ++ [box])
    []

namespace Deskew

/-- From src/methods/deskew.py: `MAX_ROTATE_DEG = 20.0`. -/
def MAX_ROTATE_DEG : ℚ := 20

/-- The per-line angle normalisation loop of `estimate_skew_angle`: keep an
angle within ±45°, shift a vertical-ish angle (magnitude in (45°, 135°]) by
90° towards horizontal, discard angles near ±180°.  The raw angle of a line
is `degrees(arctan2(dy, dx))` (`90.0` when `dx = 0`); Canny, `HoughLinesP`
and the trigonometric conversion are external cv2/numpy routines, so the
estimator is modelled over the list of raw line angles they produce. -/
def normalize_angles (raw : List ℚ) : List ℚ :=
  raw.foldr
    (fun angle acc =>
      if |angle| ≤ 45 then angle :: acc
      else if |angle| ≤ 135 then (if 0 < angle then angle - 90 else angle + 90) :: acc
      else acc)
    []

/-- Models `np.median`: sort ascending; the middle element for odd length,
the mean of the two middle elements for even length. -/
def median (l : List ℚ) : ℚ :=
  let s := sort_by (fun a b => decide (a < b)) l
  if s.length % 2 = 1 then s.getD (s.length / 2) 0
  else (s.getD (s.length / 2 - 1) 0 + s.getD (s.length / 2) 0) / 2

/-- From src/methods/deskew.py: `estimate_skew_angle`, downstream of the
Hough transform: `None` when no usable angle remains after normalisation
(this also covers `lines` being `None` or empty), or when the median
magnitude exceeds `MAX_ROTATE_DEG`. -/
def estimate_skew_angle (raw : List ℚ) : Option ℚ :=
  let angles := normalize_angles raw
  if angles = [] then none
  else
    let m := median angles
    if MAX_ROTATE_DEG < |m| then none
    else some m

/-- Result of `auto_deskew`: either the untouched input image (the
`angle is None` early return) or the image rotated by the given angle
(`rotate_image(image, -angle)`; `cv2.warpAffine` is abstracted as the
`rotated` constructor). -/
inductive DeskewResult where
  | unchanged
  | rotated (angle : ℚ)
deriving DecidableEq, Repr

/-- From src/methods/deskew.py: `auto_deskew`, at the level of which
transform is applied to the image. -/
def auto_deskew (raw : List ℚ) : DeskewResult :=
  match estimate_skew_angle raw with
  | none => DeskewResult.unchanged
  | some a => DeskewResult.rotated (-a)

end Deskew

namespace Ocr

/-- Inner `for j` loop body of `merge_boxes` in src/ocr/merge.py: absorb
into the accumulator an unused box whose vertical overlap with the current
accumulator exceeds 0.6 of the shorter height, expanding the accumulator to
the union and marking the box used. -/
def absorb (boxes : List Box) (i : ℕ) (st : Box × List Bool) (j : ℕ) :
    Box × List Bool :=
  if i = j ∨ st.2.getD j true then st
  else
    match boxes[j]? with
    | none => st
    | some b =>
      let a := st.1
      let overlap_y := min (a.y + a.h) (b.y + b.h) - max a.y b.y
      if overlap_y ≤ 0 then st
      else if (3 : ℚ) / 5 < (overlap_y : ℚ) / ((min a.h b.h : Int) : ℚ) then
        ({ x := min a.x b.x, y := min a.y b.y,
           w := max (a.x + a.w) (b.x + b.w) - min a.x b.x,
           h := max (a.y + a.h) (b.y + b.h) - min a.y b.y },
         st.2.set j true)
      else st

/-- Outer `for i` loop body of `merge_boxes` in src/ocr/merge.py. -/
def merge_step (boxes : List Box) (st : List Box × List Bool) (i : ℕ) :
    List Box × List Bool :=
  if st.2.getD i true then st
  else
    match boxes[i]? with
    | none => st
    | some a =>
      let p := (List.range boxes.length).foldl (absorb boxes i) (a, st.2)
      (st.1 ++ [p.1], p.2.set i true)

/-- From src/ocr/merge.py: `merge_boxes(boxes)`. -/
def merge_boxes (boxes : List Box) : List Box :=
  ((List.range boxes.length).foldl (merge_step boxes)
    ([], List.replicate boxes.length false)).1

end Ocr

namespace Detector

/-- From src/methods/detector.py: `BORDER = 5`. -/
def BORDER : Int := 5

/-- The inner `merge_boxes` helper of `detect_image` (bounding union of a
box list; `Box(0, 0, 0, 0)` on the empty list). -/
def merge_boxes : List Box → Box
  | [] => { x := 0, y := 0, w := 0, h := 0 }
  | b :: bs =>
    let x0 := (bs.map Box.x).foldl min b.x
    let y0 := (bs.map Box.y).foldl min b.y
    let x1 := (bs.map (fun c => c.x + c.w)).foldl max (b.x + b.w)
    let y1 := (bs.map (fun c => c.y + c.h)).foldl max (b.y + b.h)
    { x := x0, y := y0, w := x1 - x0, h := y1 - y0 }

/-- The hard-stop test of the growth loop:
`(has_w_range and w > W_RANGE[1]) or (has_h_range and h > H_RANGE[1])`. -/
def over_max (wR hR : Option (Int × Int)) (b : Box) : Bool :=
  (match wR with | some wr => decide (wr.2 < b.w) | none => false) ||
  (match hR with | some hr => decide (hr.2 < b.h) | none => false)

/-- The acceptance step of the growth loop: `best_valid` is overwritten by
the current merged box when both ranges are supplied and its width and
height lie within them. -/
def update_best (wR hR : Option (Int × Int)) (current : Box) (best : Option Box) :
    Option Box :=
  match wR, hR with
  | some wr, some hr =>
    if wr.1 ≤ current.w ∧ current.w ≤ wr.2 ∧ hr.1 ≤ current.h ∧ current.h ≤ hr.2 then
      some current
    else best
  | _, _ => best

/-- The `for idx in indices` loop of the growth step: skip indices already
used, skip a neighbour whose inclusion pushes the merged box over a
configured maximum, and add the first remaining one (`components[idx]` is
looked up totally; the KD-tree only returns indices into `components`). -/
def first_addable (components : List Box) (wR hR : Option (Int × Int))
    (usedIdx : List ℕ) (usedBoxes : List Box) : List ℕ → Option (ℕ × Box)
  | [] => none
  | idx :: rest =>
    if idx ∈ usedIdx then first_addable components wR hR usedIdx usedBoxes rest
    else
      match components[idx]? with
      | none => first_addable components wR hR usedIdx usedBoxes rest
      | some cbox =>
        if over_max wR hR (merge_boxes (usedBoxes ++ [cbox])) then
          first_addable components wR hR usedIdx usedBoxes rest
        else some (idx, cbox)

/-- The `while found_new` growth loop of `detect_image` for one seed,
fuelled by the number of iterations still allowed; the KD-tree query
`tree.query(center, k)` (scipy) is abstracted as the `query` oracle,
invoked on the current merged box and `k` exactly as in the source.
Returns the seed's `best_valid` and the final working set. -/
def grow (components : List Box) (query : Box → ℕ → List ℕ)
    (wR hR : Option (Int × Int)) :
    ℕ → List ℕ → List Box → Option Box → Option Box × List Box
  | 0, _, usedBoxes, best => (best, usedBoxes)
  | fuel + 1, usedIdx, usedBoxes, best =>
    let current := merge_boxes usedBoxes
    if over_max wR hR current then (best, usedBoxes)
    else
      let best' := update_best wR hR current best
      let k := min 8 (components.length - usedIdx.length)
      if k = 0 then (best', usedBoxes)
      else
        match first_addable components wR hR usedIdx usedBoxes (query current k) with
        | none => (best', usedBoxes)
        | some p =>
          grow components query wR hR fuel (usedIdx ++ [p.1]) (usedBoxes ++ [p.2]) best'

/-- The per-seed candidate collection of `detect_image`: every component is
tried as a seed and contributes its `best_valid`, when one was recorded. -/
def grow_candidates (components : List Box) (query : Box → ℕ → List ℕ)
    (wR hR : Option (Int × Int)) : List Box :=
  components.enum.filterMap (fun p =>
    (grow components query wR hR (components.length + 1) [p.1] [p.2] none).1)

/-- The rectangle `cv2.dnn.NMSBoxes` is handed for a candidate: the source
passes `[x, y, x + w, y + h]` where OpenCV expects `(x, y, width, height)`,
so the rectangle OpenCV sees has width `x + w` and height `y + h`. -/
def nms_rect (b : Box) : Box := { x := b.x, y := b.y, w := b.x + b.w, h := b.y + b.h }

/-- Rectangle intersection-over-union as computed inside `cv2.dnn.NMSBoxes`
on `(x, y, w, h)` rectangles. -/
def rect_iou (a b : Box) : ℚ :=
  let ix := min (a.x + a.w) (b.x + b.w) - max a.x b.x
  let iy := min (a.y + a.h) (b.y + b.h) - max a.y b.y
  let inter : Int := if 0 < ix ∧ 0 < iy then ix * iy else 0
  let union : Int := a.area + b.area - inter
  if union ≤ 0 then 0 else (inter : ℚ) / (union : ℚ)

/-- `cv2.dnn.NMSBoxes(boxes, scores, 0.0, IOU_THRESH)` with the candidate
areas as scores: drop boxes whose score is not above the score threshold,
stably sort the rest by score descending, then greedily keep a box whose
overlap with every already-kept box does not exceed the NMS threshold;
the kept indices come back in that order. -/
def nms_indices (cands : List Box) : List ℕ :=
  let scored := cands.enum.filter (fun p => decide (0 < p.2.area))
  let sorted := sort_by (fun p q => decide (q.2.area < p.2.area)) scored
  (sorted.foldl
    (fun kept p =>
      if kept.all (fun q => rect_iou (nms_rect p.2) (nms_rect q.2) ≤ IOU_THRESH) then
        kept ++ [p]
      else kept)
    []).map Prod.fst

/-- The border expansion applied to each accepted box:
`Box(x - BORDER, y - BORDER, w + BORDER * 2, h + BORDER * 2)`. -/
def expand_box (b : Box) : Box :=
  { x := b.x - BORDER, y := b.y - BORDER, w := b.w + BORDER * 2, h := b.h + BORDER * 2 }

/-- Lines 154–165 of src/methods/detector.py: run NMS over the candidate
list, then walk the kept indices, skipping each survivor with a white gap
(`has_white_gap(image, ·)` is image-dependent and abstracted as the `gap`
predicate) and appending the border-expanded rest. -/
def detect_image_post (gap : Box → Bool) (candidates : List Box) : List Box :=
  (nms_indices candidates).foldl
    (fun final idx =>
      match candidates[idx]? with
      | none => final
      | some box => if gap box then final else final ++ [expand_box box])
    []

/-- From src/methods/detector.py: `detect_image`.  Connected-component
extraction (cv2) is abstracted as the `components` input, the KD-tree as
`query`, and the gap filter as `gap`; the empty-components and
empty-candidates early returns are mirrored. -/
def detect_image (components : List Box) (query : Box → ℕ → List ℕ)
    (wR hR : Option (Int × Int)) (gap : Box → Bool) : List Box :=
  if components.isEmpty then []
  else
    let candidates := grow_candidates components query wR hR
    if candidates.isEmpty then []
    else detect_image_post gap candidates

/-- The pipeline order claimed by the spec (`RegionGrower → GapFilter →
Deduplicator`): gap-filter the candidate list first, then deduplicate the
gap-filtered list, then border-expand.  Written from the spec's words, to
be compared with `detect_image_post`. -/
def gap_then_dedup (gap : Box → Bool) (candidates : List Box) : List Box :=
  let filtered := candidates.filter (fun b => ! gap b)
  (nms_indices filtered).foldl
    (fun final idx =>
      match filtered[idx]? with
      | none => final
      | some box => final ++ [expand_box box])
    []

/-- Grayscale image as a row-major pixel grid. -/
abbrev Img : Type := List (List ℕ)

/-- Pixel lookup; PIL's `crop` pads any region outside the image with 0. -/
def getPx (img : Img) (r c : Int) : ℕ :=
  if r < 0 ∨ c < 0 then 0
  else (img.getD r.toNat []).getD c.toNat 0

/-- The ink mask of `detect_selection`: `arr[r][c] < 128` on the crop of
`rect` (crop row `r`, column `c`). -/
def ink (img : Img) (rect : Box) (r c : ℕ) : Bool :=
  decide (getPx img (rect.y + r) (rect.x + c) < 128)

/-- Height of the crop of `rect` (PIL clamps a non-positive extent to 0). -/
def crop_h (rect : Box) : ℕ := rect.h.toNat

/-- Width of the crop of `rect`. -/
def crop_w (rect : Box) : ℕ := rect.w.toNat

/-- Crop rows containing ink, ascending (`np.where(rows)[0]`). -/
def ink_rows (img : Img) (rect : Box) : List ℕ :=
  (List.range (crop_h rect)).filter (fun r =>
    (List.range (crop_w rect)).any (fun c => ink img rect r c))

/-- Crop columns containing ink, ascending (`np.where(cols)[0]`). -/
def ink_cols (img : Img) (rect : Box) : List ℕ :=
  (List.range (crop_w rect)).filter (fun c =>
    (List.range (crop_h rect)).any (fun r => ink img rect r c))

/-- From src/methods/detector.py: `detect_selection(image, rect)`. -/
def detect_selection (img : Img) (rect : Box) : Option Box :=
  if ¬ ((List.range (crop_h rect)).any fun r =>
        (List.range (crop_w rect)).any fun c => ink img rect r c) then none
  else if ink_rows img rect = [] ∨ ink_cols img rect = [] then none
  else
    let min_y : Int := ((ink_rows img rect).headD 0 : ℕ)
    let max_y : Int := ((ink_rows img rect).getLastD 0 : ℕ)
    let min_x : Int := ((ink_cols img rect).headD 0 : ℕ)
    let max_x : Int := ((ink_cols img rect).getLastD 0 : ℕ)
    some { x := rect.x + min_x - BORDER, y := rect.y + min_y - BORDER,
           w := max_x - min_x + 1 + BORDER * 2, h := max_y - min_y + 1 + BORDER * 2,
           selected := true, source := Source.manual }

end Detector

lemma iou_data_comm (a b : Box) : iou_data a b = iou_data b a := by
  simp only [iou_data, Box.area]
  simp [min_comm, max_comm, add_comm]

lemma iou_of_no_overlap (a b : Box)
    (h : min (a.x + a.w) (b.x + b.w) ≤ max a.x b.x ∨
         min (a.y + a.h) (b.y + b.h) ≤ max a.y b.y) :
    iou a b = 0 := by
  simp only [iou, iou_data]
  rw [if_pos h]
  split
  · rfl
  · simp

lemma iou_unit (a : Box) (haw : 0 < a.w) (hah : 0 < a.h) : iou a a = 1 := by
  have hc : ¬ (min (a.x + a.w) (a.x + a.w) ≤ max a.x a.x ∨
      min (a.y + a.h) (a.y + a.h) ≤ max a.y a.y) := by
    simp only [min_self, max_self]
    omega
  have harea : (1 : Int) ≤ a.w * a.h := by nlinarith
  have hq : (1 : ℚ) ≤ ((a.w * a.h : Int) : ℚ) := by exact_mod_cast harea
  simp only [iou, iou_data, Box.area]
  rw [if_neg hc]
  dsimp only
  simp only [min_self, max_self, add_sub_cancel_left]
  rw [if_neg (by linarith)]
  exact div_self (by linarith)

lemma iou_bounds (a b : Box) : 0 ≤ iou a b ∧ iou a b ≤ 1 := by
  by_cases h : min (a.x + a.w) (b.x + b.w) ≤ max a.x b.x ∨
      min (a.y + a.h) (b.y + b.h) ≤ max a.y b.y
  · rw [iou_of_no_overlap a b h]
    norm_num
  · push_neg at h
    obtain ⟨hx, hy⟩ := h
    simp only [iou, iou_data, Box.area]
    rw [if_neg (not_or.mpr ⟨not_le.mpr hx, not_le.mpr hy⟩)]
    dsimp only
    set ix : Int := min (a.x + a.w) (b.x + b.w) - max a.x b.x with hix
    set iy : Int := min (a.y + a.h) (b.y + b.h) - max a.y b.y with hiy
    have hix0 : 0 < ix := by omega
    have hiy0 : 0 < iy := by omega
    have hixa : ix ≤ a.w := by
      have h1 := min_le_left (a.x + a.w) (b.x + b.w)
      have h2 := le_max_left a.x b.x
      omega
    have hixb : ix ≤ b.w := by
      have h1 := min_le_right (a.x + a.w) (b.x + b.w)
      have h2 := le_max_right a.x b.x
      omega
    have hiya : iy ≤ a.h := by
      have h1 := min_le_left (a.y + a.h) (b.y + b.h)
      have h2 := le_max_left a.y b.y
      omega
    have hiyb : iy ≤ b.h := by
      have h1 := min_le_right (a.y + a.h) (b.y + b.h)
      have h2 := le_max_right a.y b.y
      omega
    have hIa : ix * iy ≤ a.w * a.h := by nlinarith
    have hIb : ix * iy ≤ b.w * b.h := by nlinarith
    have hI0 : (0 : Int) < ix * iy := by nlinarith
    have hU1 : (1 : Int) ≤ a.w * a.h + b.w * b.h - ix * iy := by omega
    have hUq : (1 : ℚ) ≤ ((a.w * a.h + b.w * b.h - ix * iy : Int) : ℚ) := by
      exact_mod_cast hU1
    rw [if_neg (by linarith)]
    constructor
    · apply div_nonneg
      · exact_mod_cast le_of_lt hI0
      · linarith
    · rw [div_le_one (by linarith)]
      exact_mod_cast (by omega : ix * iy ≤ a.w * a.h + b.w * b.h - ix * iy)

/-- C7: IOU is 1 on a box with itself, symmetric, within the unit interval,
and 0 on non-overlapping boxes or when the union is negligible. -/
theorem spec_C7 (a b : Box) (ha : 0 < a.w ∧ 0 < a.h) (hb : 0 < b.w ∧ 0 < b.h) :
    iou a a = 1 ∧ iou a b = iou b a ∧ 0 ≤ iou a b ∧ iou a b ≤ 1 ∧
    ((min (a.x + a.w) (b.x + b.w) ≤ max a.x b.x ∨
      min (a.y + a.h) (b.y + b.h) ≤ max a.y b.y) → iou a b = 0) ∧
    ((iou_data a b).2.1 < 1 / 10 → iou a b = 0) := by
  refine ⟨iou_unit a ha.1 ha.2, ?_, (iou_bounds a b).1, (iou_bounds a b).2,
    iou_of_no_overlap a b, ?_⟩
  · rw [iou, iou, iou_data_comm]
  · intro hsmall
    simp only [iou]
    rw [if_pos hsmall]

lemma coverage_ratio_comm (a b : Box) : coverage_ratio a b = coverage_ratio b a := by
  rw [coverage_ratio, coverage_ratio, iou_data_comm]

lemma dedup_fold_pairwise (l : List Box) (acc : List Box)
    (hacc : acc.Pairwise (fun a b => coverage_ratio a b ≤ COVER_THRESH)) :
    (l.foldl
      (fun final_boxes box =>
        if final_boxes.any (fun kept => COVER_THRESH < coverage_ratio box kept) then
          final_boxes
        else
          final_boxes ++ [box])
      acc).Pairwise (fun a b => coverage_ratio a b ≤ COVER_THRESH) := by
  induction l generalizing acc with
  | nil => exact hacc
  | cons x xs ih =>
    simp only [List.foldl_cons]
    apply ih
    by_cases hdrop : acc.any (fun kept => decide (COVER_THRESH < coverage_ratio x kept)) = true
    · rw [if_pos hdrop]
      exact hacc
    · rw [if_neg hdrop]
      rw [List.pairwise_append]
      refine ⟨hacc, List.pairwise_singleton _ _, ?_⟩
      intro a hamem b hbmem
      simp only [List.mem_singleton] at hbmem
      subst hbmem
      simp only [List.any_eq_true, decide_eq_true_eq, not_exists, not_and, not_lt] at hdrop
      rw [coverage_ratio_comm]
      exact hdrop a hamem

/-- Outer box of the containment scenario. -/
def box_outer : Box := { x := 0, y := 0, w := 10, h := 10 }

/-- Box fully inside `box_outer`. -/
def box_inner : Box := { x := 2, y := 2, w := 3, h := 3 }

/-- C2: coverage deduplication leaves no two output boxes with coverage
ratio above 0.95, and on a pair with one box fully inside the other
(coverage ratio 1) it keeps exactly one box. -/
theorem spec_C2 :
    (∀ boxes : List Box, (∀ b ∈ boxes, 0 < b.w ∧ 0 < b.h) →
      (coverage_deduplication boxes).Pairwise
        (fun a b => coverage_ratio a b ≤ 95 / 100)) ∧
    coverage_ratio box_inner box_outer = 1 ∧
    (coverage_deduplication [box_outer, box_inner]).length = 1 := by
  refine ⟨?_, ?_, ?_⟩
  · intro boxes _
    have h := dedup_fold_pairwise
      (sort_by (fun a b => a.x * a.y < b.x * b.y) boxes) [] (List.Pairwise.nil)
    rw [coverage_deduplication]
    exact h
  · norm_num [coverage_ratio, iou_data, Box.area, box_inner, box_outer]
  · norm_num [coverage_deduplication, sort_by, insert_by, coverage_ratio, iou_data,
      Box.area, COVER_THRESH, box_inner, box_outer]

theorem spec_C2_witness :
    (coverage_deduplication [box_outer, box_inner]).Pairwise
      (fun a b => coverage_ratio a b ≤ 95 / 100) :=
  spec_C2.1 [box_outer, box_inner] (by decide)

/-- C4: the skew estimator returns `none` whenever no usable line angle
remains after normalisation or the median normalized angle has magnitude
above 20 degrees, and `auto_deskew` applies the identity transform exactly
when the estimator returns `none`. -/
theorem spec_C4 (raw : List ℚ) :
    ((Deskew.normalize_angles raw = [] ∨
      20 < |Deskew.median (Deskew.normalize_angles raw)|) →
      Deskew.estimate_skew_angle raw = none) ∧
    (Deskew.auto_deskew raw = Deskew.DeskewResult.unchanged ↔
      Deskew.estimate_skew_angle raw = none) := by
  constructor
  · intro h
    simp only [Deskew.estimate_skew_angle]
    by_cases hempty : Deskew.normalize_angles raw = []
    · rw [if_pos hempty]
    · rw [if_neg hempty]
      rcases h with h | h
      · exact absurd h hempty
      · rw [if_pos (show Deskew.MAX_ROTATE_DEG < |Deskew.median (Deskew.normalize_angles raw)| from h)]
  · cases h : Deskew.estimate_skew_angle raw with
    | none => simp [Deskew.auto_deskew, h]
    | some a => simp [Deskew.auto_deskew, h]

theorem spec_C4_witness :
    Deskew.estimate_skew_angle [30] = none ∧
    (Deskew.auto_deskew [30] = Deskew.DeskewResult.unchanged ↔
      Deskew.estimate_skew_angle [30] = none) :=
  ⟨(spec_C4 [30]).1 (Or.inr (by norm_num [Deskew.median, Deskew.normalize_angles,
      sort_by, insert_by])),
   (spec_C4 [30]).2⟩

namespace Detector

lemma post_foldl (gap : Box → Bool) (cands : List Box) (L : List ℕ) (acc : List Box) :
    L.foldl
      (fun final idx =>
        match cands[idx]? with
        | none => final
        | some box => if gap box then final else final ++ [expand_box box])
      acc =
    acc ++ (((L.filterMap (fun idx => cands[idx]?)).filter
      (fun b => ! gap b)).map expand_box) := by
  induction L generalizing acc with
  | nil => simp
  | cons idx rest ih =>
    simp only [List.foldl_cons, List.filterMap_cons]
    cases h : cands[idx]? with
    | none => simp only [h, ih]
    | some box =>
      by_cases hg : gap box
      · simp [h, hg, ih]
      · simp [h, hg, ih]

end Detector

/-- The gap predicate of the order-of-operations counterexample: rejects
exactly the height-10 candidate. -/
def gap_ce : Box → Bool := fun b => decide (b.h = 10)

/-- First candidate of the counterexample (larger area, rejected by the gap
predicate). -/
def cand_big : Box := { x := 0, y := 0, w := 10, h := 10 }

/-- Second candidate of the counterexample (heavily overlapped by
`cand_big`, accepted by the gap predicate). -/
def cand_small : Box := { x := 0, y := 0, w := 10, h := 9 }

/-- C3 counterexample: on the candidate list `[cand_big, cand_small]` the
code's post-processing (NMS deduplication first, gap filter on the
survivors) differs from deduplicating the gap-filtered candidate list as
the claim states: the gap-rejected `cand_big` suppresses `cand_small`
during NMS, so the code returns no box while the claimed order returns
one. -/
theorem spec_C3_counterexample :
    Detector.detect_image_post gap_ce [cand_big, cand_small] ≠
    Detector.gap_then_dedup gap_ce [cand_big, cand_small] := by
  norm_num [Detector.detect_image_post, Detector.gap_then_dedup,
    Detector.nms_indices, Detector.rect_iou, Detector.nms_rect,
    Detector.expand_box, Detector.BORDER, sort_by, insert_by, IOU_THRESH,
    Box.area, gap_ce, cand_big, cand_small, List.enum]

/-- C3 amended: in `detect_image`, NMS deduplication runs on the full
candidate list first and the gap filter is applied only to the NMS
survivors; the final result equals border-expanding the gap-surviving
members of the deduplicated candidate list. -/
theorem spec_C3_amended (gap : Box → Bool) (candidates : List Box) :
    Detector.detect_image_post gap candidates =
    (((Detector.nms_indices candidates).filterMap
        (fun idx => candidates[idx]?)).filter
      (fun b => ! gap b)).map Detector.expand_box := by
  rw [Detector.detect_image_post]
  simpa using Detector.post_foldl gap candidates (Detector.nms_indices candidates) []

namespace Detector

lemma update_best_miss (wR hR : Option (Int × Int)) (current : Box) (best : Option Box)
    (h : wR = none ∨ hR = none) : update_best wR hR current best = best := by
  rcases h with h | h
  · subst h
    cases hR <;> rfl
  · subst h
    cases wR <;> rfl

lemma grow_best_const (components : List Box) (query : Box → ℕ → List ℕ)
    (wR hR : Option (Int × Int)) (hmiss : wR = none ∨ hR = none) :
    ∀ (fuel : ℕ) (usedIdx : List ℕ) (usedBoxes : List Box) (best : Option Box),
      (grow components query wR hR fuel usedIdx usedBoxes best).1 = best := by
  intro fuel
  induction fuel with
  | zero => intro usedIdx usedBoxes best; rfl
  | succ n ih =>
    intro usedIdx usedBoxes best
    rw [grow]
    split_ifs with h1
    · rfl
    · rw [update_best_miss _ _ _ _ hmiss]
      dsimp only
      split_ifs with h2
      · rfl
      · split
        · rfl
        · exact ih _ _ _
end Detector

/-- C5: when either size range is missing, the growth loop records no
candidate for any seed and `detect_image` returns the empty list. -/
theorem spec_C5 (components : List Box) (query : Box → ℕ → List ℕ)
    (wR hR : Option (Int × Int)) (gap : Box → Bool)
    (hmiss : wR = none ∨ hR = none) :
    Detector.grow_candidates components query wR hR = [] ∧
    Detector.detect_image components query wR hR gap = [] := by
  have hcand : Detector.grow_candidates components query wR hR = [] := by
    rw [Detector.grow_candidates]
    rw [List.filterMap_eq_nil_iff]
    intro p _
    exact Detector.grow_best_const components query wR hR hmiss _ _ _ _
  refine ⟨hcand, ?_⟩
  rw [Detector.detect_image]
  split_ifs with h1
  · rfl
  · simp [hcand]

theorem spec_C5_witness :
    Detector.grow_candidates [box_outer] (fun _ _ => []) none (some (1, 2)) = [] ∧
    Detector.detect_image [box_outer] (fun _ _ => []) none (some (1, 2))
      (fun _ => false) = [] :=
  spec_C5 [box_outer] (fun _ _ => []) none (some (1, 2)) (fun _ => false)
    (Or.inl rfl)

namespace Detector

lemma update_best_in_range (wr hr : Int × Int) (current : Box) (best : Option Box)
    (hbest : ∀ b, best = some b →
      wr.1 ≤ b.w ∧ b.w ≤ wr.2 ∧ hr.1 ≤ b.h ∧ b.h ≤ hr.2) :
    ∀ b, update_best (some wr) (some hr) current best = some b →
      wr.1 ≤ b.w ∧ b.w ≤ wr.2 ∧ hr.1 ≤ b.h ∧ b.h ≤ hr.2 := by
  intro b
  rw [update_best]
  split_ifs with h
  · intro hb
    cases hb
    exact ⟨h.1, h.2.1, h.2.2.1, h.2.2.2⟩
  · exact hbest b

lemma grow_best_in_range (components : List Box) (query : Box → ℕ → List ℕ)
    (wr hr : Int × Int) :
    ∀ (fuel : ℕ) (usedIdx : List ℕ) (usedBoxes : List Box) (best : Option Box),
      (∀ b, best = some b → wr.1 ≤ b.w ∧ b.w ≤ wr.2 ∧ hr.1 ≤ b.h ∧ b.h ≤ hr.2) →
      ∀ b, (grow components query (some wr) (some hr) fuel usedIdx usedBoxes best).1 = some b →
        wr.1 ≤ b.w ∧ b.w ≤ wr.2 ∧ hr.1 ≤ b.h ∧ b.h ≤ hr.2 := by
  intro fuel
  induction fuel with
  | zero => intro usedIdx usedBoxes best hbest b hb; exact hbest b hb
  | succ n ih =>
    intro usedIdx usedBoxes best hbest b
    rw [grow]
    split_ifs with h1
    · exact hbest b
    · dsimp only
      split_ifs with h2
      · exact update_best_in_range wr hr _ best hbest b
      · split
        · exact update_best_in_range wr hr _ best hbest b
        · exact ih _ _ _ (update_best_in_range wr hr _ best hbest) b

lemma first_addable_not_over (components : List Box) (wR hR : Option (Int × Int))
    (usedIdx : List ℕ) (usedBoxes : List Box) :
    ∀ (L : List ℕ) (p : ℕ × Box),
      first_addable components wR hR usedIdx usedBoxes L = some p →
      over_max wR hR (merge_boxes (usedBoxes ++ [p.2])) = false := by
  intro L
  induction L with
  | nil => intro p hp; exact absurd hp (by rw [first_addable]; simp)
  | cons idx rest ih =>
    intro p hp
    rw [first_addable] at hp
    split_ifs at hp with h1
    · exact ih p hp
    · revert hp
      split
      · exact ih p
      · split_ifs with h2
        · exact ih p
        · intro hp
          cases hp
          simpa using h2

lemma grow_used_boxes (components : List Box) (query : Box → ℕ → List ℕ)
    (wR hR : Option (Int × Int)) :
    ∀ (fuel : ℕ) (usedIdx : List ℕ) (usedBoxes : List Box) (best : Option Box),
      (grow components query wR hR fuel usedIdx usedBoxes best).2 = usedBoxes ∨
      over_max wR hR (merge_boxes
        ((grow components query wR hR fuel usedIdx usedBoxes best).2)) = false := by
  intro fuel
  induction fuel with
  | zero => intro usedIdx usedBoxes best; exact Or.inl rfl
  | succ n ih =>
    intro usedIdx usedBoxes best
    rw [grow]
    split_ifs with h1
    · exact Or.inl rfl
    · dsimp only
      split_ifs with h2
      · exact Or.inl rfl
      · split
        · exact Or.inl rfl
        · rename_i p hp
          rcases ih (usedIdx ++ [p.1]) (usedBoxes ++ [p.2]) (update_best wR hR (merge_boxes usedBoxes) best) with h | h
          · rw [h]
            exact Or.inr (first_addable_not_over components wR hR usedIdx usedBoxes _ p hp)
          · exact Or.inr h

end Detector

/-- C1: every per-seed candidate recorded by the growth loop of
`detect_image` has width and height inside the supplied inclusive ranges,
and whenever a neighbour has been added to a growth path the merged box of
the final working set stays within both maxima. -/
theorem spec_C1 (components : List Box) (query : Box → ℕ → List ℕ)
    (wmin wmax hmin hmax : Int) :
    (∀ b ∈ Detector.grow_candidates components query (some (wmin, wmax))
        (some (hmin, hmax)),
      wmin ≤ b.w ∧ b.w ≤ wmax ∧ hmin ≤ b.h ∧ b.h ≤ hmax) ∧
    (∀ (fuel i : ℕ) (seed : Box),
      (Detector.grow components query (some (wmin, wmax)) (some (hmin, hmax))
        fuel [i] [seed] none).2 ≠ [seed] →
      (Detector.merge_boxes
        ((Detector.grow components query (some (wmin, wmax)) (some (hmin, hmax))
          fuel [i] [seed] none).2)).w ≤ wmax ∧
      (Detector.merge_boxes
        ((Detector.grow components query (some (wmin, wmax)) (some (hmin, hmax))
          fuel [i] [seed] none).2)).h ≤ hmax) := by
  constructor
  · intro b hb
    rw [Detector.grow_candidates, List.mem_filterMap] at hb
    obtain ⟨p, _, hp⟩ := hb
    exact Detector.grow_best_in_range components query (wmin, wmax) (hmin, hmax)
      _ _ _ none (by intro b hb; cases hb) b hp
  · intro fuel i seed hne
    rcases Detector.grow_used_boxes components query (some (wmin, wmax))
      (some (hmin, hmax)) fuel [i] [seed] none with h | h
    · exact absurd h hne
    · rw [Detector.over_max] at h
      simp only [Bool.or_eq_false_iff, decide_eq_false_iff_not, not_lt] at h
      exact ⟨h.1, h.2⟩

theorem spec_C1_witness :
    (box_outer ∈ Detector.grow_candidates [box_outer] (fun _ _ => [])
      (some (1, 20)) (some (1, 20)) ∧
     1 ≤ box_outer.w ∧ box_outer.w ≤ 20 ∧ 1 ≤ box_outer.h ∧ box_outer.h ≤ 20) ∧
    ((Detector.grow [box_outer, box_inner] (fun _ _ => [1]) (some (1, 20))
        (some (1, 20)) 3 [0] [box_outer] none).2 ≠ [box_outer] ∧
     (Detector.merge_boxes
        ((Detector.grow [box_outer, box_inner] (fun _ _ => [1]) (some (1, 20))
          (some (1, 20)) 3 [0] [box_outer] none).2)).w ≤ 20) := by
  constructor
  · constructor
    · norm_num [Detector.grow_candidates, Detector.grow, Detector.merge_boxes,
        Detector.over_max, Detector.update_best, Detector.first_addable,
        List.enum, box_outer]
    · exact (spec_C1 [box_outer] (fun _ _ => []) 1 20 1 20).1 box_outer
        (by norm_num [Detector.grow_candidates, Detector.grow, Detector.merge_boxes,
          Detector.over_max, Detector.update_best, Detector.first_addable,
          List.enum, box_outer])
  · constructor
    · norm_num [Detector.grow, Detector.merge_boxes, Detector.over_max,
        Detector.update_best, Detector.first_addable, box_outer, box_inner]
    · exact ((spec_C1 [box_outer, box_inner] (fun _ _ => [1]) 1 20 1 20).2 3 0 box_outer
        (by norm_num [Detector.grow, Detector.merge_boxes, Detector.over_max,
          Detector.update_best, Detector.first_addable, box_outer, box_inner])).1

lemma headD_mem_of_ne_nil {l : List ℕ} (h : l ≠ []) : l.headD 0 ∈ l := by
  cases l with
  | nil => exact absurd rfl h
  | cons x xs => simp

lemma getLastD_mem_of_ne_nil {l : List ℕ} (d : ℕ) (h : l ≠ []) : l.getLastD d ∈ l := by
  induction l generalizing d with
  | nil => exact absurd rfl h
  | cons x xs ih =>
    rw [List.getLastD_cons]
    by_cases hxs : xs = []
    · subst hxs
      simp [List.getLastD]
    · exact List.mem_cons_of_mem x (ih x hxs)

lemma getLastD_irrel {l : List ℕ} (h : l ≠ []) (d d' : ℕ) :
    l.getLastD d = l.getLastD d' := by
  cases l with
  | nil => exact absurd rfl h
  | cons x xs => rw [List.getLastD_cons, List.getLastD_cons]

lemma headD_le_of_pairwise {l : List ℕ} (hp : l.Pairwise (· < ·)) {r : ℕ}
    (hr : r ∈ l) : l.headD 0 ≤ r := by
  cases l with
  | nil => cases hr
  | cons x xs =>
    simp only [List.headD_cons]
    rcases List.mem_cons.mp hr with rfl | hmem
    · exact le_refl r
    · exact le_of_lt ((List.pairwise_cons.mp hp).1 r hmem)

lemma le_getLastD_of_pairwise {l : List ℕ} (hp : l.Pairwise (· < ·)) {r : ℕ}
    (hr : r ∈ l) : r ≤ l.getLastD 0 := by
  induction l with
  | nil => cases hr
  | cons x xs ih =>
    rw [List.getLastD_cons]
    have hp' := List.pairwise_cons.mp hp
    rcases List.mem_cons.mp hr with rfl | hmem
    · by_cases hxs : xs = []
      · subst hxs
        simp [List.getLastD]
      · exact le_of_lt (hp'.1 _ (getLastD_mem_of_ne_nil r hxs))
    · have hxs : xs ≠ [] := List.ne_nil_of_mem hmem
      rw [getLastD_irrel hxs _ 0]
      exact ih hp'.2 hmem

lemma pairwise_filter_range (n : ℕ) (p : ℕ → Bool) :
    ((List.range n).filter p).Pairwise (· < ·) :=
  List.Pairwise.sublist (List.filter_sublist _) (List.pairwise_lt_range n)

namespace Detector

lemma ink_rows_ne_nil_iff (img : Img) (rect : Box) :
    ink_rows img rect ≠ [] ↔
    ∃ r < crop_h rect, ∃ c < crop_w rect, ink img rect r c = true := by
  rw [ink_rows, Ne, List.filter_eq_nil_iff]
  push_neg
  constructor
  · rintro ⟨r, hrmem, hpred⟩
    rw [List.any_eq_true] at hpred
    obtain ⟨c, hcmem, hc⟩ := hpred
    exact ⟨r, List.mem_range.mp hrmem, c, List.mem_range.mp hcmem, hc⟩
  · rintro ⟨r, hr, c, hc, hink⟩
    refine ⟨r, List.mem_range.mpr hr, ?_⟩
    rw [List.any_eq_true]
    exact ⟨c, List.mem_range.mpr hc, hink⟩

lemma ink_cols_ne_nil_iff (img : Img) (rect : Box) :
    ink_cols img rect ≠ [] ↔
    ∃ r < crop_h rect, ∃ c < crop_w rect, ink img rect r c = true := by
  rw [ink_cols, Ne, List.filter_eq_nil_iff]
  push_neg
  constructor
  · rintro ⟨c, hcmem, hpred⟩
    rw [List.any_eq_true] at hpred
    obtain ⟨r, hrmem, hr⟩ := hpred
    exact ⟨r, List.mem_range.mp hrmem, c, List.mem_range.mp hcmem, hr⟩
  · rintro ⟨r, hr, c, hc, hink⟩
    refine ⟨c, List.mem_range.mpr hc, ?_⟩
    rw [List.any_eq_true]
    exact ⟨r, List.mem_range.mpr hr, hink⟩

lemma mask_any_iff (img : Img) (rect : Box) :
    ((List.range (crop_h rect)).any fun r =>
      (List.range (crop_w rect)).any fun c => ink img rect r c) = true ↔
    ∃ r < crop_h rect, ∃ c < crop_w rect, ink img rect r c = true := by
  simp only [List.any_eq_true, List.mem_range]

lemma detect_selection_eq_none_iff (img : Img) (rect : Box) :
    detect_selection img rect = none ↔
    ∀ r < crop_h rect, ∀ c < crop_w rect, ink img rect r c = false := by
  rw [detect_selection]
  by_cases hmask : ((List.range (crop_h rect)).any fun r =>
      (List.range (crop_w rect)).any fun c => ink img rect r c) = true
  · rw [if_neg (by simpa using hmask)]
    have hex := (mask_any_iff img rect).mp hmask
    rw [if_neg (by
      rw [not_or]
      exact ⟨(ink_rows_ne_nil_iff img rect).mpr hex,
             (ink_cols_ne_nil_iff img rect).mpr hex⟩)]
    constructor
    · intro h
      cases h
    · intro hall
      obtain ⟨r, hr, c, hc, hink⟩ := hex
      rw [hall r hr c hc] at hink
      cases hink
  · rw [if_pos (by simpa using hmask)]
    constructor
    · intro _ r hr c hc
      rw [mask_any_iff] at hmask
      push_neg at hmask
      simpa using hmask r hr c hc
    · intro _
      rfl

lemma detect_selection_eq_some (img : Img) (rect : Box)
    (hr : ink_rows img rect ≠ []) (hc : ink_cols img rect ≠ []) :
    detect_selection img rect =
    some { x := rect.x + ((ink_cols img rect).headD 0 : ℕ) - BORDER,
           y := rect.y + ((ink_rows img rect).headD 0 : ℕ) - BORDER,
           w := (((ink_cols img rect).getLastD 0 : ℕ) : Int) -
                (((ink_cols img rect).headD 0 : ℕ) : Int) + 1 + BORDER * 2,
           h := (((ink_rows img rect).getLastD 0 : ℕ) : Int) -
                (((ink_rows img rect).headD 0 : ℕ) : Int) + 1 + BORDER * 2,
           selected := true, source := Source.manual } := by
  rw [detect_selection]
  rw [if_neg (by
    simp only [not_not]
    exact (mask_any_iff img rect).mpr ((ink_rows_ne_nil_iff img rect).mp hr))]
  rw [if_neg (by rw [not_or]; exact ⟨hr, hc⟩)]

end Detector

/-- C6: `detect_selection` returns `none` exactly when the drawn rectangle's
crop holds no ink pixel; otherwise it returns the tight bounding box of the
ink pixels inside the rectangle, expanded by the 5-pixel border on all
sides, with manual source — not the drawn rectangle itself. -/
theorem spec_C6 (img : Detector.Img) (rect : Box) :
    (Detector.detect_selection img rect = none ↔
      ∀ r < Detector.crop_h rect, ∀ c < Detector.crop_w rect,
        Detector.ink img rect r c = false) ∧
    (∀ b, Detector.detect_selection img rect = some b →
      b.source = Source.manual ∧ b.selected = true ∧
      ∃ rmin rmax cmin cmax : ℕ,
        (∃ c < Detector.crop_w rect, Detector.ink img rect rmin c = true) ∧
        (∃ c < Detector.crop_w rect, Detector.ink img rect rmax c = true) ∧
        (∃ r < Detector.crop_h rect, Detector.ink img rect r cmin = true) ∧
        (∃ r < Detector.crop_h rect, Detector.ink img rect r cmax = true) ∧
        (∀ r < Detector.crop_h rect, ∀ c < Detector.crop_w rect,
          Detector.ink img rect r c = true →
          rmin ≤ r ∧ r ≤ rmax ∧ cmin ≤ c ∧ c ≤ cmax) ∧
        b = { x := rect.x + (cmin : Int) - 5, y := rect.y + (rmin : Int) - 5,
              w := (cmax : Int) - (cmin : Int) + 1 + 10,
              h := (rmax : Int) - (rmin : Int) + 1 + 10,
              selected := true, source := Source.manual }) := by
  refine ⟨Detector.detect_selection_eq_none_iff img rect, ?_⟩
  intro b hb
  have hrne : Detector.ink_rows img rect ≠ [] := by
    intro h0
    have hnone : Detector.detect_selection img rect = none := by
      rw [Detector.detect_selection_eq_none_iff]
      intro r hr c hc
      by_contra hink
      rw [Bool.not_eq_false] at hink
      exact (h0 ▸ (Detector.ink_rows_ne_nil_iff img rect).mpr ⟨r, hr, c, hc, hink⟩) rfl
    rw [hnone] at hb
    cases hb
  have hcne : Detector.ink_cols img rect ≠ [] :=
    (Detector.ink_cols_ne_nil_iff img rect).mpr
      ((Detector.ink_rows_ne_nil_iff img rect).mp hrne)
  rw [Detector.detect_selection_eq_some img rect hrne hcne] at hb
  have hbval := Option.some.inj hb
  subst hbval
  refine ⟨rfl, rfl, (Detector.ink_rows img rect).headD 0,
    (Detector.ink_rows img rect).getLastD 0,
    (Detector.ink_cols img rect).headD 0,
    (Detector.ink_cols img rect).getLastD 0, ?_, ?_, ?_, ?_, ?_, rfl⟩
  · have hmem := headD_mem_of_ne_nil hrne
    rw [Detector.ink_rows, List.mem_filter] at hmem
    have := hmem.2
    rw [List.any_eq_true] at this
    obtain ⟨c, hcmem, hcink⟩ := this
    exact ⟨c, List.mem_range.mp hcmem, hcink⟩
  · have hmem := getLastD_mem_of_ne_nil 0 hrne
    rw [Detector.ink_rows, List.mem_filter] at hmem
    have := hmem.2
    rw [List.any_eq_true] at this
    obtain ⟨c, hcmem, hcink⟩ := this
    exact ⟨c, List.mem_range.mp hcmem, hcink⟩
  · have hmem := headD_mem_of_ne_nil hcne
    rw [Detector.ink_cols, List.mem_filter] at hmem
    have := hmem.2
    rw [List.any_eq_true] at this
    obtain ⟨r, hrmem, hrink⟩ := this
    exact ⟨r, List.mem_range.mp hrmem, hrink⟩
  · have hmem := getLastD_mem_of_ne_nil 0 hcne
    rw [Detector.ink_cols, List.mem_filter] at hmem
    have := hmem.2
    rw [List.any_eq_true] at this
    obtain ⟨r, hrmem, hrink⟩ := this
    exact ⟨r, List.mem_range.mp hrmem, hrink⟩
  · intro r hr c hc hink
    have hrmem : r ∈ Detector.ink_rows img rect := by
      rw [Detector.ink_rows, List.mem_filter]
      refine ⟨List.mem_range.mpr hr, ?_⟩
      rw [List.any_eq_true]
      exact ⟨c, List.mem_range.mpr hc, hink⟩
    have hcmem : c ∈ Detector.ink_cols img rect := by
      rw [Detector.ink_cols, List.mem_filter]
      refine ⟨List.mem_range.mpr hc, ?_⟩
      rw [List.any_eq_true]
      exact ⟨r, List.mem_range.mpr hr, hink⟩
    exact ⟨headD_le_of_pairwise (pairwise_filter_range _ _) hrmem,
           le_getLastD_of_pairwise (pairwise_filter_range _ _) hrmem,
           headD_le_of_pairwise (pairwise_filter_range _ _) hcmem,
           le_getLastD_of_pairwise (pairwise_filter_range _ _) hcmem⟩

/-- Rectangle used for the concrete selection checks. -/
def sel_rect : Box := { x := 0, y := 0, w := 1, h := 1 }

/-- Box returned by `detect_selection` on a single ink pixel at the origin. -/
def sel_box : Box :=
  { x := -5, y := -5, w := 11, h := 11, selected := true, source := Source.manual }

theorem spec_C6_witness :
    Detector.detect_selection [[255]] sel_rect = none ∧
    sel_box.source = Source.manual := by
  constructor
  · exact (spec_C6 [[255]] sel_rect).1.mpr (by decide)
  · exact ((spec_C6 [[0]] sel_rect).2 sel_box (by decide)).1

/-- C10: the box returned by `detect_selection` is not clamped to the drawn
rectangle or to the image: ink touching the rectangle's left or top edge
puts the returned x or y exactly 5 pixels outside the rectangle, and ink
within 5 pixels of the image's left or top edge makes the returned x or y
negative. -/
theorem spec_C10 (img : Detector.Img) (rect : Box) (b : Box)
    (hb : Detector.detect_selection img rect = some b) :
    ((∃ r < Detector.crop_h rect, Detector.ink img rect r 0 = true) →
      b.x = rect.x - 5 ∧ b.x < rect.x) ∧
    ((∃ c < Detector.crop_w rect, Detector.ink img rect 0 c = true) →
      b.y = rect.y - 5 ∧ b.y < rect.y) ∧
    (∀ r c : ℕ, r < Detector.crop_h rect → c < Detector.crop_w rect →
      Detector.ink img rect r c = true → rect.x + (c : Int) < 5 → b.x < 0) ∧
    (∀ r c : ℕ, r < Detector.crop_h rect → c < Detector.crop_w rect →
      Detector.ink img rect r c = true → rect.y + (r : Int) < 5 → b.y < 0) := by
  have hrne : Detector.ink_rows img rect ≠ [] := by
    intro h0
    have hnone : Detector.detect_selection img rect = none := by
      rw [Detector.detect_selection_eq_none_iff]
      intro r hr c hc
      by_contra hink
      rw [Bool.not_eq_false] at hink
      exact (h0 ▸ (Detector.ink_rows_ne_nil_iff img rect).mpr ⟨r, hr, c, hc, hink⟩) rfl
    rw [hnone] at hb
    cases hb
  have hcne : Detector.ink_cols img rect ≠ [] :=
    (Detector.ink_cols_ne_nil_iff img rect).mpr
      ((Detector.ink_rows_ne_nil_iff img rect).mp hrne)
  have hw0 : 0 < Detector.crop_w rect := by
    by_contra h
    push_neg at h
    apply hcne
    rw [Detector.ink_cols, Nat.le_zero.mp h]
    rfl
  have hh0 : 0 < Detector.crop_h rect := by
    by_contra h
    push_neg at h
    apply hrne
    rw [Detector.ink_rows, Nat.le_zero.mp h]
    rfl
  rw [Detector.detect_selection_eq_some img rect hrne hcne] at hb
  have hbval := Option.some.inj hb
  subst hbval
  have hcol_le : ∀ r c : ℕ, r < Detector.crop_h rect → c < Detector.crop_w rect →
      Detector.ink img rect r c = true → (Detector.ink_cols img rect).headD 0 ≤ c := by
    intro r c hr hc hink
    have hcmem : c ∈ Detector.ink_cols img rect := by
      rw [Detector.ink_cols, List.mem_filter]
      refine ⟨List.mem_range.mpr hc, ?_⟩
      rw [List.any_eq_true]
      exact ⟨r, List.mem_range.mpr hr, hink⟩
    exact headD_le_of_pairwise (pairwise_filter_range _ _) hcmem
  have hrow_le : ∀ r c : ℕ, r < Detector.crop_h rect → c < Detector.crop_w rect →
      Detector.ink img rect r c = true → (Detector.ink_rows img rect).headD 0 ≤ r := by
    intro r c hr hc hink
    have hrmem : r ∈ Detector.ink_rows img rect := by
      rw [Detector.ink_rows, List.mem_filter]
      refine ⟨List.mem_range.mpr hr, ?_⟩
      rw [List.any_eq_true]
      exact ⟨c, List.mem_range.mpr hc, hink⟩
    exact headD_le_of_pairwise (pairwise_filter_range _ _) hrmem
  refine ⟨?_, ?_, ?_, ?_⟩
  · rintro ⟨r, hr, hink⟩
    have hc0 := hcol_le r 0 hr hw0 hink
    rw [Nat.le_zero.mp hc0]
    simp only [Detector.BORDER]
    constructor
    · push_cast
      ring
    · push_cast
      omega
  · rintro ⟨c, hc, hink⟩
    have hr0 := hrow_le 0 c hh0 hc hink
    rw [Nat.le_zero.mp hr0]
    simp only [Detector.BORDER]
    constructor
    · push_cast
      ring
    · push_cast
      omega
  · intro r c hr hc hink hcx
    have hle := hcol_le r c hr hc hink
    simp only [Detector.BORDER]
    omega
  · intro r c hr hc hink hry
    have hle := hrow_le r c hr hc hink
    simp only [Detector.BORDER]
    omega

theorem spec_C10_witness :
    Detector.detect_selection [[0]] sel_rect = some sel_box ∧
    sel_box.x = sel_rect.x - 5 ∧ sel_box.x < sel_rect.x ∧ sel_box.x < 0 ∧
    sel_box.y < 0 := by
  have hb : Detector.detect_selection [[0]] sel_rect = some sel_box := by decide
  have h := spec_C10 [[0]] sel_rect sel_box hb
  refine ⟨hb, (h.1 ⟨0, by decide, by decide⟩).1, (h.1 ⟨0, by decide, by decide⟩).2,
    h.2.2.1 0 0 (by decide) (by decide) (by decide) (by decide),
    h.2.2.2 0 0 (by decide) (by decide) (by decide) (by decide)⟩

lemma getD_set_bool (l : List Bool) (i j : ℕ) (a : Bool) :
    (l.set i a).getD j false = if i = j ∧ i < l.length then a else l.getD j false := by
  rw [List.getD_eq_getElem?_getD, List.getD_eq_getElem?_getD, List.getElem?_set]
  by_cases h1 : i = j
  · subst h1
    by_cases h2 : i < l.length
    · simp [h2]
    · have : l[i]? = none := List.getElem?_eq_none (by omega)
      simp [h2, this]
  · simp [h1]

lemma used_set_mono {l : List Bool} {k : ℕ} (j : ℕ)
    (h : l.getD k false = true) : (l.set j true).getD k false = true := by
  rw [getD_set_bool]
  split_ifs with h1
  · rfl
  · exact h

lemma used_set_self {l : List Bool} {j : ℕ} (h : j < l.length) :
    (l.set j true).getD j false = true := by
  rw [getD_set_bool]
  split_ifs with h1
  · rfl
  · exact absurd ⟨rfl, h⟩ h1

lemma used_set_cases {l : List Bool} {j k : ℕ}
    (h : (l.set j true).getD k false = true) :
    l.getD k false = true ∨ k = j := by
  rw [getD_set_bool] at h
  by_cases h1 : j = k ∧ j < l.length
  · exact Or.inr h1.1.symm
  · rw [if_neg h1] at h
    exact Or.inl h

/-- Containment of box `a` in box `m`. -/
def contains_box (m a : Box) : Prop :=
  m.x ≤ a.x ∧ m.y ≤ a.y ∧ a.x + a.w ≤ m.x + m.w ∧ a.y + a.h ≤ m.y + m.h

lemma contains_box_refl (a : Box) : contains_box a a :=
  ⟨le_refl _, le_refl _, le_refl _, le_refl _⟩

lemma contains_box_trans {a b c : Box} (h1 : contains_box a b) (h2 : contains_box b c) :
    contains_box a c :=
  ⟨le_trans h1.1 h2.1, le_trans h1.2.1 h2.2.1,
   le_trans h2.2.2.1 h1.2.2.1, le_trans h2.2.2.2 h1.2.2.2⟩

lemma getD_irrel_of_lt {l : List Bool} {i : ℕ} (h : i < l.length) (d d' : Bool) :
    l.getD i d = l.getD i d' := by
  rw [List.getD_eq_getElem?_getD, List.getD_eq_getElem?_getD, List.getElem?_eq_getElem h]
  rfl

lemma getD_replicate_false (n k : ℕ) : (List.replicate n false).getD k false = false := by
  rw [List.getD_eq_getElem?_getD, List.getElem?_replicate]
  split <;> rfl

namespace Ocr

lemma absorb_length (boxes : List Box) (i : ℕ) (st : Box × List Bool) (j : ℕ) :
    (absorb boxes i st j).2.length = st.2.length := by
  rw [absorb]
  split_ifs with h1
  · rfl
  · split
    · rfl
    · dsimp only
      split_ifs with h2 h3
      · rfl
      · simp [List.length_set]
      · rfl

lemma absorb_grows (boxes : List Box) (i : ℕ) (st : Box × List Bool) (j : ℕ) :
    contains_box (absorb boxes i st j).1 st.1 := by
  rw [absorb]
  split_ifs with h1
  · exact contains_box_refl _
  · split
    · exact contains_box_refl _
    · dsimp only
      split_ifs with h2 h3
      · exact contains_box_refl _
      · rename_i b hb
        refine ⟨min_le_left _ _, min_le_left _ _, ?_, ?_⟩
        · have h4 := le_max_left (st.1.x + st.1.w) (b.x + b.w)
          have h5 := min_le_left st.1.x b.x
          dsimp only
          linarith
        · have h4 := le_max_left (st.1.y + st.1.h) (b.y + b.h)
          have h5 := min_le_left st.1.y b.y
          dsimp only
          linarith
      · exact contains_box_refl _

lemma absorb_mono_used (boxes : List Box) (i : ℕ) (st : Box × List Bool) (j k : ℕ)
    (h : st.2.getD k false = true) : (absorb boxes i st j).2.getD k false = true := by
  rw [absorb]
  split_ifs with h1
  · exact h
  · split
    · exact h
    · dsimp only
      split_ifs with h2 h3
      · exact h
      · exact used_set_mono j h
      · exact h

lemma absorb_used_cases (boxes : List Box) (i : ℕ) (st : Box × List Bool) (j k : ℕ)
    (h : (absorb boxes i st j).2.getD k false = true) :
    st.2.getD k false = true ∨
    ∃ bk, boxes[k]? = some bk ∧ contains_box (absorb boxes i st j).1 bk := by
  revert h
  rw [absorb]
  split_ifs with h1
  · exact Or.inl
  · split
    · exact Or.inl
    · rename_i b hb
      dsimp only
      split_ifs with h2 h3
      · exact Or.inl
      · intro h
        rcases used_set_cases h with h | rfl
        · exact Or.inl h
        · refine Or.inr ⟨b, hb, min_le_right _ _, min_le_right _ _, ?_, ?_⟩
          · have h4 := le_max_right (st.1.x + st.1.w) (b.x + b.w)
            have h5 := min_le_right st.1.x b.x
            dsimp only
            linarith
          · have h4 := le_max_right (st.1.y + st.1.h) (b.y + b.h)
            have h5 := min_le_right st.1.y b.y
            dsimp only
            linarith
      · exact Or.inl

lemma absorb_fold_length (boxes : List Box) (i : ℕ) (L : List ℕ) (st : Box × List Bool) :
    (L.foldl (absorb boxes i) st).2.length = st.2.length := by
  induction L generalizing st with
  | nil => rfl
  | cons j rest ih => rw [List.foldl_cons, ih, absorb_length]

lemma absorb_fold_grows (boxes : List Box) (i : ℕ) (L : List ℕ) (st : Box × List Bool) :
    contains_box (L.foldl (absorb boxes i) st).1 st.1 := by
  induction L generalizing st with
  | nil => exact contains_box_refl _
  | cons j rest ih =>
    rw [List.foldl_cons]
    exact contains_box_trans (ih _) (absorb_grows boxes i st j)

lemma absorb_fold_mono_used (boxes : List Box) (i : ℕ) (L : List ℕ)
    (st : Box × List Bool) (k : ℕ) (h : st.2.getD k false = true) :
    (L.foldl (absorb boxes i) st).2.getD k false = true := by
  induction L generalizing st with
  | nil => exact h
  | cons j rest ih =>
    rw [List.foldl_cons]
    exact ih _ (absorb_mono_used boxes i st j k h)

lemma absorb_fold_used_cases (boxes : List Box) (i : ℕ) (L : List ℕ)
    (st : Box × List Bool) (k : ℕ)
    (h : (L.foldl (absorb boxes i) st).2.getD k false = true) :
    st.2.getD k false = true ∨
    ∃ bk, boxes[k]? = some bk ∧ contains_box (L.foldl (absorb boxes i) st).1 bk := by
  induction L generalizing st with
  | nil => exact Or.inl h
  | cons j rest ih =>
    rw [List.foldl_cons] at h ⊢
    rcases ih _ h with h' | ⟨bk, hbk, hcont⟩
    · rcases absorb_used_cases boxes i st j k h' with h'' | ⟨bk, hbk, hcont⟩
      · exact Or.inl h''
      · exact Or.inr ⟨bk, hbk,
          contains_box_trans (absorb_fold_grows boxes i rest _) hcont⟩
    · exact Or.inr ⟨bk, hbk, hcont⟩

end Ocr

namespace Ocr

/-- Coverage invariant of the outer loop: every used input box is contained
in some already-emitted output box. -/
def Covered (boxes : List Box) (st : List Box × List Bool) : Prop :=
  ∀ k bk, boxes[k]? = some bk → st.2.getD k false = true →
    ∃ m ∈ st.1, contains_box m bk

lemma merge_step_length (boxes : List Box) (st : List Box × List Bool) (i : ℕ) :
    (merge_step boxes st i).2.length = st.2.length := by
  rw [merge_step]
  split_ifs with h1
  · rfl
  · split
    · rfl
    · dsimp only
      rw [List.length_set, absorb_fold_length]

lemma merge_step_mono_used (boxes : List Box) (st : List Box × List Bool) (i k : ℕ)
    (h : st.2.getD k false = true) : (merge_step boxes st i).2.getD k false = true := by
  rw [merge_step]
  split_ifs with h1
  · exact h
  · split
    · exact h
    · dsimp only
      exact used_set_mono i (absorb_fold_mono_used boxes i _ _ k h)

lemma merge_step_mem (boxes : List Box) (st : List Box × List Bool) (i : ℕ)
    (m : Box) (h : m ∈ st.1) : m ∈ (merge_step boxes st i).1 := by
  rw [merge_step]
  split_ifs with h1
  · exact h
  · split
    · exact h
    · dsimp only
      exact List.mem_append_left _ h

lemma merge_step_sets (boxes : List Box) (st : List Box × List Bool) (i : ℕ)
    (hi : i < boxes.length) (hlen : st.2.length = boxes.length) :
    (merge_step boxes st i).2.getD i false = true := by
  rw [merge_step]
  split_ifs with h1
  · rw [getD_irrel_of_lt (by omega) false true]
    exact h1
  · split
    · rename_i hnone
      rw [List.getElem?_eq_none_iff] at hnone
      omega
    · dsimp only
      apply used_set_self
      rw [absorb_fold_length]
      dsimp only
      omega

lemma merge_step_covered (boxes : List Box) (st : List Box × List Bool) (i : ℕ)
    (hlen : st.2.length = boxes.length) (hcov : Covered boxes st) :
    Covered boxes (merge_step boxes st i) := by
  rw [merge_step]
  split_ifs with h1
  · exact hcov
  · split
    · exact hcov
    · rename_i a ha
      dsimp only
      intro k bk hbk hused
      rcases used_set_cases hused with h' | rfl
      · rcases absorb_fold_used_cases boxes i _ _ k h' with h'' | ⟨bk', hbk', hcont⟩
        · obtain ⟨m, hm, hmc⟩ := hcov k bk hbk h''
          exact ⟨m, List.mem_append_left _ hm, hmc⟩
        · rw [hbk] at hbk'
          cases Option.some.inj hbk'
          exact ⟨_, List.mem_append_right _ (List.mem_singleton_self _), hcont⟩
      · rw [ha] at hbk
        cases Option.some.inj hbk
        exact ⟨_, List.mem_append_right _ (List.mem_singleton_self _),
          absorb_fold_grows boxes k _ _⟩

lemma merge_fold_mono_used (boxes : List Box) (L : List ℕ)
    (st : List Box × List Bool) (k : ℕ) (h : st.2.getD k false = true) :
    (L.foldl (merge_step boxes) st).2.getD k false = true := by
  induction L generalizing st with
  | nil => exact h
  | cons i rest ih =>
    rw [List.foldl_cons]
    exact ih _ (merge_step_mono_used boxes st i k h)

lemma merge_fold_inv (boxes : List Box) (L : List ℕ) (st : List Box × List Bool)
    (hlen : st.2.length = boxes.length) (hcov : Covered boxes st) :
    (L.foldl (merge_step boxes) st).2.length = boxes.length ∧
    Covered boxes (L.foldl (merge_step boxes) st) ∧
    (∀ j ∈ L, j < boxes.length →
      (L.foldl (merge_step boxes) st).2.getD j false = true) := by
  induction L generalizing st with
  | nil => exact ⟨hlen, hcov, by intro j hj; cases hj⟩
  | cons i rest ih =>
    rw [List.foldl_cons]
    have hlen' : (merge_step boxes st i).2.length = boxes.length := by
      rw [merge_step_length, hlen]
    have hcov' := merge_step_covered boxes st i hlen hcov
    obtain ⟨l1, l2, l3⟩ := ih _ hlen' hcov'
    refine ⟨l1, l2, ?_⟩
    intro j hj hjlt
    rcases List.mem_cons.mp hj with rfl | hmem
    · exact merge_fold_mono_used boxes rest _ j
        (merge_step_sets boxes st j hjlt hlen)
    · exact l3 j hmem hjlt

end Ocr

/-- The merge condition of src/ocr/merge.py on a pair of boxes: positive
vertical overlap exceeding 0.6 of the shorter height. -/
def vert_overlap_exceeds (a b : Box) : Prop :=
  0 < min (a.y + a.h) (b.y + b.h) - max a.y b.y ∧
  (3 : ℚ) / 5 <
    ((min (a.y + a.h) (b.y + b.h) - max a.y b.y : Int) : ℚ) / ((min a.h b.h : Int) : ℚ)

/-- First input box of the merge counterexample. -/
def mb_a : Box := { x := 0, y := 0, w := 10, h := 10 }

/-- Second input box of the merge counterexample. -/
def mb_b : Box := { x := 0, y := 8, w := 10, h := 10 }

/-- Third input box of the merge counterexample. -/
def mb_c : Box := { x := 0, y := 3, w := 10, h := 12 }

/-- Union of `mb_a` and `mb_c` produced by the merge pass. -/
def mb_d : Box := { x := 0, y := 0, w := 10, h := 15 }

/-- C8 counterexample: on `[mb_a, mb_b, mb_c]` the single greedy pass of
`merge_boxes` outputs two distinct boxes whose vertical overlap exceeds 60%
of the shorter height (`mb_b` and `mb_c` also exceed the threshold yet end
up unmerged), refuting the claimed output property. -/
theorem spec_C8_counterexample :
    Ocr.merge_boxes [mb_a, mb_b, mb_c] = [mb_d, mb_b] ∧
    mb_d ≠ mb_b ∧ vert_overlap_exceeds mb_d mb_b ∧
    vert_overlap_exceeds mb_b mb_c := by
  refine ⟨?_, by decide, ?_, ?_⟩
  · norm_num [Ocr.merge_boxes, Ocr.merge_step, Ocr.absorb, List.range_succ,
      mb_a, mb_b, mb_c, mb_d]
  · norm_num [vert_overlap_exceeds, mb_d, mb_b]
  · norm_num [vert_overlap_exceeds, mb_b, mb_c]

/-- C8 amended: `merge_boxes` performs a single greedy pass, absorbing a
box into the current accumulator only when their vertical overlap exceeds
60% of the shorter height at that moment; every input box is contained in
some output box, but two distinct output boxes may still overlap beyond the
threshold. -/
theorem spec_C8_amended (boxes : List Box) :
    ∀ a ∈ boxes, ∃ m ∈ Ocr.merge_boxes boxes, contains_box m a := by
  intro a ha
  obtain ⟨j, hj⟩ := List.mem_iff_getElem?.mp ha
  have hjlt : j < boxes.length := by
    by_contra h
    rw [List.getElem?_eq_none_iff.mpr (by omega)] at hj
    cases hj
  have hinv := Ocr.merge_fold_inv boxes (List.range boxes.length)
    ([], List.replicate boxes.length false) (by simp)
    (by
      intro k bk _ hused
      rw [getD_replicate_false] at hused
      cases hused)
  obtain ⟨-, hcov, hall⟩ := hinv
  have hused := hall j (List.mem_range.mpr hjlt) hjlt
  obtain ⟨m, hm, hmc⟩ := hcov j a hj hused
  exact ⟨m, hm, hmc⟩

theorem spec_C8_amended_witness :
    ∃ m ∈ Ocr.merge_boxes [mb_a, mb_b, mb_c], contains_box m mb_c :=
  spec_C8_amended [mb_a, mb_b, mb_c] mb_c (by decide)

lemma foldl_min_le (l : List Int) (a : Int) : l.foldl min a ≤ a := by
  induction l generalizing a with
  | nil => exact le_refl a
  | cons x xs ih => exact le_trans (ih (min a x)) (min_le_left a x)

lemma le_foldl_max (l : List Int) (a : Int) : a ≤ l.foldl max a := by
  induction l generalizing a with
  | nil => exact le_refl a
  | cons x xs ih => exact le_trans (le_max_left a x) (ih (max a x))

lemma pos_of_contains {m a : Box} (h : contains_box m a) (haw : 0 < a.w)
    (hah : 0 < a.h) : 0 < m.w ∧ 0 < m.h := by
  obtain ⟨h1, h2, h3, h4⟩ := h
  omega

namespace Detector

lemma merge_boxes_pos (s : Box) (bs : List Box) (hw : 0 < s.w) (hh : 0 < s.h) :
    0 < (merge_boxes (s :: bs)).w ∧ 0 < (merge_boxes (s :: bs)).h := by
  rw [merge_boxes]
  dsimp only
  have h1 := foldl_min_le (bs.map Box.x) s.x
  have h2 := le_foldl_max (bs.map (fun c => c.x + c.w)) (s.x + s.w)
  have h3 := foldl_min_le (bs.map Box.y) s.y
  have h4 := le_foldl_max (bs.map (fun c => c.y + c.h)) (s.y + s.h)
  constructor <;> omega

lemma update_best_pos (wR hR : Option (Int × Int)) (current : Box) (best : Option Box)
    (hcur : 0 < current.w ∧ 0 < current.h)
    (hbest : ∀ b, best = some b → 0 < b.w ∧ 0 < b.h) :
    ∀ b, update_best wR hR current best = some b → 0 < b.w ∧ 0 < b.h := by
  intro b hb
  cases wR with
  | none => exact hbest b hb
  | some wr =>
    cases hR with
    | none => exact hbest b hb
    | some hr =>
      rw [update_best] at hb
      split_ifs at hb with h
      · cases Option.some.inj hb
        exact hcur
      · exact hbest b hb

lemma grow_best_pos (components : List Box) (query : Box → ℕ → List ℕ)
    (wR hR : Option (Int × Int)) :
    ∀ (fuel : ℕ) (usedIdx : List ℕ) (s : Box) (bs : List Box) (best : Option Box),
      0 < s.w → 0 < s.h →
      (∀ b, best = some b → 0 < b.w ∧ 0 < b.h) →
      ∀ b, (grow components query wR hR fuel usedIdx (s :: bs) best).1 = some b →
        0 < b.w ∧ 0 < b.h := by
  intro fuel
  induction fuel with
  | zero => intro usedIdx s bs best _ _ hbest b hb; exact hbest b hb
  | succ n ih =>
    intro usedIdx s bs best hw hh hbest b
    have hbest' := update_best_pos wR hR (merge_boxes (s :: bs)) best
      (merge_boxes_pos s bs hw hh) hbest
    rw [grow]
    split_ifs with h1
    · exact hbest b
    · dsimp only
      split_ifs with h2
      · exact hbest' b
      · split
        · exact hbest' b
        · rename_i p hp
          rw [List.cons_append]
          exact ih _ s (bs ++ [p.2]) _ hw hh hbest' b

lemma grow_candidates_pos (components : List Box) (query : Box → ℕ → List ℕ)
    (wR hR : Option (Int × Int))
    (hc : ∀ c ∈ components, 0 < c.w ∧ 0 < c.h) :
    ∀ b ∈ grow_candidates components query wR hR, 0 < b.w ∧ 0 < b.h := by
  intro b hb
  rw [grow_candidates, List.mem_filterMap] at hb
  obtain ⟨p, hpmem, hp⟩ := hb
  have hpc := hc p.2 (List.snd_mem_of_mem_enum hpmem)
  exact grow_best_pos components query wR hR _ [p.1] p.2 [] none hpc.1 hpc.2
    (by intro b hb; cases hb) b hp

lemma detect_image_post_mem (gap : Box → Bool) (candidates : List Box) (b : Box)
    (hb : b ∈ detect_image_post gap candidates) :
    ∃ c ∈ candidates, b = expand_box c := by
  rw [detect_image_post, post_foldl, List.nil_append] at hb
  rw [List.mem_map] at hb
  obtain ⟨c, hcmem, hc⟩ := hb
  rw [List.mem_filter] at hcmem
  obtain ⟨hcmem, -⟩ := hcmem
  rw [List.mem_filterMap] at hcmem
  obtain ⟨idx, -, hidx⟩ := hcmem
  exact ⟨c, List.getElem?_mem hidx, hc.symm⟩

lemma detect_image_pos (components : List Box) (query : Box → ℕ → List ℕ)
    (wR hR : Option (Int × Int)) (gap : Box → Bool)
    (hc : ∀ c ∈ components, 0 < c.w ∧ 0 < c.h) :
    ∀ b ∈ detect_image components query wR hR gap, 0 < b.w ∧ 0 < b.h := by
  intro b hb
  rw [detect_image] at hb
  split_ifs at hb with h1
  · cases hb
  · dsimp only at hb
    split_ifs at hb with h2
    · cases hb
    · obtain ⟨c, hcmem, hceq⟩ := detect_image_post_mem gap _ b hb
      have hcpos := grow_candidates_pos components query wR hR hc c hcmem
      subst hceq
      rw [expand_box, BORDER]
      dsimp only
      omega

end Detector

lemma mem_insert_by {α : Type} (lt : α → α → Bool) (x y : α) (l : List α) :
    y ∈ insert_by lt x l ↔ y = x ∨ y ∈ l := by
  induction l with
  | nil => simp [insert_by]
  | cons z zs ih =>
    rw [insert_by]
    split_ifs with h
    · simp [List.mem_cons]
    · rw [List.mem_cons, ih, List.mem_cons]
      tauto

lemma mem_sort_by {α : Type} (lt : α → α → Bool) (y : α) (l : List α) :
    y ∈ sort_by lt l ↔ y ∈ l := by
  suffices h : ∀ acc : List α,
      y ∈ l.foldl (fun acc x => insert_by lt x acc) acc ↔ y ∈ acc ∨ y ∈ l by
    rw [sort_by, h []]
    simp
  induction l with
  | nil => intro acc; simp
  | cons x xs ih =>
    intro acc
    rw [List.foldl_cons, ih, mem_insert_by, List.mem_cons]
    tauto

lemma coverage_deduplication_subset (boxes : List Box) (b : Box)
    (hb : b ∈ coverage_deduplication boxes) : b ∈ boxes := by
  rw [coverage_deduplication] at hb
  have hsub : ∀ (l acc : List Box),
      b ∈ l.foldl
        (fun final_boxes box =>
          if final_boxes.any (fun kept => COVER_THRESH < coverage_ratio box kept) then
            final_boxes
          else
            final_boxes ++ [box])
        acc → b ∈ acc ∨ b ∈ l := by
    intro l
    induction l with
    | nil => intro acc h; exact Or.inl h
    | cons x xs ih =>
      intro acc h
      rw [List.foldl_cons] at h
      rcases ih _ h with h' | h'
      · revert h'
        split_ifs with hc
        · intro h'
          exact Or.inl h'
        · intro h'
          rcases List.mem_append.mp h' with h'' | h''
          · exact Or.inl h''
          · rw [List.mem_singleton] at h''
            subst h''
            exact Or.inr (List.mem_cons_self _ _)
      · exact Or.inr (List.mem_cons_of_mem _ h')
  rcases hsub _ [] hb with h | h
  · cases h
  · exact (mem_sort_by _ b boxes).mp h

namespace Ocr

lemma merge_step_mem_cases (boxes : List Box) (st : List Box × List Bool) (i : ℕ)
    (m : Box) (hm : m ∈ (merge_step boxes st i).1) :
    m ∈ st.1 ∨ ∃ a, boxes[i]? = some a ∧ contains_box m a := by
  revert hm
  rw [merge_step]
  split_ifs with h1
  · exact Or.inl
  · split
    · exact Or.inl
    · rename_i a ha
      dsimp only
      intro hm
      rcases List.mem_append.mp hm with h | h
      · exact Or.inl h
      · rw [List.mem_singleton] at h
        subst h
        exact Or.inr ⟨a, ha, absorb_fold_grows boxes i _ _⟩

lemma merge_boxes_all_pos (boxes : List Box)
    (hb : ∀ x ∈ boxes, 0 < x.w ∧ 0 < x.h) :
    ∀ m ∈ merge_boxes boxes, 0 < m.w ∧ 0 < m.h := by
  rw [merge_boxes]
  have hfold : ∀ (L : List ℕ) (st : List Box × List Bool),
      (∀ m ∈ st.1, 0 < m.w ∧ 0 < m.h) →
      ∀ m ∈ (L.foldl (merge_step boxes) st).1, 0 < m.w ∧ 0 < m.h := by
    intro L
    induction L with
    | nil => intro st h; exact h
    | cons i rest ih =>
      intro st h
      rw [List.foldl_cons]
      apply ih
      intro m hm
      rcases merge_step_mem_cases boxes st i m hm with h' | ⟨a, ha, hcont⟩
      · exact h m h'
      · have hapos := hb a (List.getElem?_mem ha)
        exact pos_of_contains hcont hapos.1 hapos.2
  exact hfold _ _ (by intro m hm; cases hm)

end Ocr

namespace Detector

lemma detect_selection_pos (img : Img) (rect : Box) (b : Box)
    (hb : detect_selection img rect = some b) : 0 < b.w ∧ 0 < b.h := by
  have hrne : ink_rows img rect ≠ [] := by
    intro h0
    have hnone : detect_selection img rect = none := by
      rw [detect_selection_eq_none_iff]
      intro r hr c hc
      by_contra hink
      rw [Bool.not_eq_false] at hink
      exact (h0 ▸ (ink_rows_ne_nil_iff img rect).mpr ⟨r, hr, c, hc, hink⟩) rfl
    rw [hnone] at hb
    cases hb
  have hcne : ink_cols img rect ≠ [] :=
    (ink_cols_ne_nil_iff img rect).mpr ((ink_rows_ne_nil_iff img rect).mp hrne)
  rw [detect_selection_eq_some img rect hrne hcne] at hb
  cases Option.some.inj hb
  have hr : (ink_rows img rect).headD 0 ≤ (ink_rows img rect).getLastD 0 := by
    apply headD_le_of_pairwise ?_ (getLastD_mem_of_ne_nil 0 hrne)
    rw [ink_rows]
    exact pairwise_filter_range _ _
  have hc : (ink_cols img rect).headD 0 ≤ (ink_cols img rect).getLastD 0 := by
    apply headD_le_of_pairwise ?_ (getLastD_mem_of_ne_nil 0 hcne)
    rw [ink_cols]
    exact pairwise_filter_range _ _
  rw [BORDER]
  dsimp only
  constructor <;> [skip; skip] <;> push_cast <;> omega

end Detector

/-- C9: every box returned past the core boundary by `detect_image`,
`detect_selection`, `coverage_deduplication` and `merge_boxes` has positive
width and height (given inputs that satisfy the Box invariant). -/
theorem spec_C9 (components : List Box) (query : Box → ℕ → List ℕ)
    (wR hR : Option (Int × Int)) (gap : Box → Bool)
    (img : Detector.Img) (rect : Box) (boxes : List Box)
    (hcomp : ∀ c ∈ components, 0 < c.w ∧ 0 < c.h)
    (hboxes : ∀ c ∈ boxes, 0 < c.w ∧ 0 < c.h) :
    (∀ b ∈ Detector.detect_image components query wR hR gap, 0 < b.w ∧ 0 < b.h) ∧
    (∀ b, Detector.detect_selection img rect = some b → 0 < b.w ∧ 0 < b.h) ∧
    (∀ b ∈ coverage_deduplication boxes, 0 < b.w ∧ 0 < b.h) ∧
    (∀ b ∈ Ocr.merge_boxes boxes, 0 < b.w ∧ 0 < b.h) :=
  ⟨Detector.detect_image_pos components query wR hR gap hcomp,
   Detector.detect_selection_pos img rect,
   fun b hb => hboxes b (coverage_deduplication_subset boxes b hb),
   Ocr.merge_boxes_all_pos boxes hboxes⟩

theorem spec_C9_witness : 0 < sel_box.w ∧ 0 < sel_box.h :=
  (spec_C9 [box_outer] (fun _ _ => []) (some (1, 20)) (some (1, 20))
    (fun _ => false) [[0]] sel_rect [mb_a] (by decide) (by decide)).2.1
    sel_box (by decide)

theorem spec_C7_witness :
    iou box_outer box_outer = 1 ∧ 0 ≤ iou box_outer box_inner ∧
    iou box_outer box_inner ≤ 1 :=
  ⟨(spec_C7 box_outer box_inner (by decide) (by decide)).1,
   (spec_C7 box_outer box_inner (by decide) (by decide)).2.2.1,
   (spec_C7 box_outer box_inner (by decide) (by decide)).2.2.2.1⟩
